import Mathlib

/-!
# Verification of the uuid-benchmark workload and statistics engine

Shallow embedding of the core algorithmic functions of the
`moguls753/uuid-benchmark` repository, together with proofs and refutations of
the specification claims about them.

Modelling conventions:
* Go `float64` values are modelled as exact rationals (`ℚ`); every claim
  settled here is insensitive to floating-point rounding.  Where the Go code
  takes square roots or evaluates the normal CDF, the model moves to `ℝ` and
  uses the exact mathematical functions (`Real.sqrt`, the Gaussian error
  function) that the Go library functions (`math.Sqrt`, `math.Erf`)
  approximate.
* Go `time.Duration` values (integer nanoseconds) are modelled as rationals.
* Go float division is total only in the IEEE sense; where a claim is about
  division by zero the result is modelled explicitly (`GoFloat` below) with
  IEEE semantics: `x/0 = +Inf` for `x > 0` and `0/0 = NaN`.
* `sort.Slice` / `sort.Float64s` sort ascending by value; the embedding uses
  `List.insertionSort (· ≤ ·)`, which produces the same (unique) sorted value
  sequence.
-/

namespace UuidBenchmark

/-! ## Worker distribution (src/internal/benchmark/postgres/mixed.go) -/

/-- The per-kind worker counts of `calculateWorkerDistribution` before the
surplus adjustment: the proportional allocation
`int(float64(totalConnections) * float64(ops) / float64(totalOps))` for each
kind, with every kind that has `ops > 0` forced to at least one worker.
The Go code computes the proportion in `float64` and truncates; on the
nonnegative machine ranges involved this is integer floor division, and the
surrounding `max(0, ...)` is the identity. -/
def prelimWorkers (totalConnections insertOps readOps updateOps : ℕ) : ℕ × ℕ × ℕ :=
  let totalOps := insertOps + readOps + updateOps
  let iw0 := totalConnections * insertOps / totalOps
  let rw0 := totalConnections * readOps / totalOps
  let uw0 := totalConnections * updateOps / totalOps
  let iw := if 0 < insertOps ∧ iw0 = 0 then 1 else iw0
  let rw := if 0 < readOps ∧ rw0 = 0 then 1 else rw0
  let uw := if 0 < updateOps ∧ uw0 = 0 then 1 else uw0
  (iw, rw, uw)

/-- Embeds `calculateWorkerDistribution` (mixed.go, lines 217-253).  If the
preliminary total exceeds `totalConnections`, the whole surplus is subtracted
from the first matching branch of the Go `if`/`else if` chain: the insert
count when it is the (weak) maximum and exceeds one, else the read count when
`readWorkers >= updateWorkers && readWorkers > 1`, else the update count when
it exceeds one; otherwise nothing is subtracted.  The counts are returned as
integers because the subtraction is Go `int` arithmetic. -/
def calculateWorkerDistribution (totalConnections insertOps readOps updateOps : ℕ) :
    ℤ × ℤ × ℤ :=
  if insertOps + readOps + updateOps = 0 then (0, 0, 0) else
  let p := prelimWorkers totalConnections insertOps readOps updateOps
  let iw : ℤ := p.1
  let rw : ℤ := p.2.1
  let uw : ℤ := p.2.2
  let total := iw + rw + uw
  if totalConnections < total then
    if rw ≤ iw ∧ uw ≤ iw ∧ 1 < iw then (iw - (total - totalConnections), rw, uw)
    else if uw ≤ rw ∧ 1 < rw then (iw, rw - (total - totalConnections), uw)
    else if 1 < uw then (iw, rw, uw - (total - totalConnections))
    else (iw, rw, uw)
  else (iw, rw, uw)

/-- Embeds the per-worker operation split used by `RunMixedWorkload` and
`InsertRecordsConcurrent`: `opsPerWorker := ops / workers`,
`remainder := ops % workers`, and worker `workerID` gets one extra operation
when `workerID < remainder`. -/
def workerOps (ops workers workerID : ℕ) : ℕ :=
  ops / workers + if workerID < ops % workers then 1 else 0

/-! ## Percentiles (src/internal/benchmark/results.go, `CalculatePercentiles`) -/

/-- Embeds `CalculatePercentiles`: empty input yields `(0, 0, 0)`; otherwise
the input is sorted ascending and the nearest-rank elements at zero-based
indices `n*50/100`, `n*95/100`, `n*99/100` (Go integer division) are returned.
Out-of-range access cannot occur (proved below); `getD` is used with an
arbitrary default. -/
def CalculatePercentiles (latencies : List ℚ) : ℚ × ℚ × ℚ :=
  if latencies = [] then (0, 0, 0) else
  let sorted := List.insertionSort (· ≤ ·) latencies
  let n := latencies.length
  (sorted.getD (n * 50 / 100) 0, sorted.getD (n * 95 / 100) 0, sorted.getD (n * 99 / 100) 0)

/-! ## Descriptive statistics (src/internal/benchmark/statistics, `Stats`) -/

/-- Embeds `statistics.Median`: average of the two central sorted values for
even length, the central sorted value for odd length, `0` for empty input. -/
def Median (values : List ℚ) : ℚ :=
  if values = [] then 0 else
  let sorted := List.insertionSort (· ≤ ·) values
  let n := values.length
  if n % 2 = 0 then (sorted.getD (n / 2 - 1) 0 + sorted.getD (n / 2) 0) / 2
  else sorted.getD (n / 2) 0

/-- Embeds `statistics.Mean`: arithmetic mean, `0` for empty input. -/
def Mean (values : List ℚ) : ℚ :=
  if values = [] then 0 else values.sum / values.length

/-- Embeds `statistics.StdDev`: sample standard deviation
`sqrt(Σ (v - mean)² / (n - 1))`, and `0` whenever `n < 2`. -/
noncomputable def StdDev (values : List ℚ) : ℝ :=
  if values.length < 2 then 0 else
  Real.sqrt ((((values.map fun v => (v - Mean values) ^ 2).sum : ℚ) : ℝ) /
    ((values.length - 1 : ℕ) : ℝ))

/-- Embeds `statistics.CV`: `stddev / |mean| * 100`, defined as `0` when the
mean is `0`. -/
noncomputable def CV (values : List ℚ) : ℝ :=
  if Mean values = 0 then 0 else StdDev values / |((Mean values : ℚ) : ℝ)| * 100

/-- Embeds the Go struct `statistics.Stats`. -/
structure Stats where
  Median : ℚ
  Mean : ℚ
  StdDev : ℝ
  Min : ℚ
  Max : ℚ
  CV : ℝ
  Values : List ℚ

/-- Embeds `statistics.Calculate`: the zero struct for empty input, otherwise
all measures plus a copy of the raw values (`Min`/`Max` read off the sorted
copy). -/
noncomputable def Calculate (values : List ℚ) : Stats :=
  if values = [] then ⟨0, 0, 0, 0, 0, 0, []⟩ else
  let sorted := List.insertionSort (· ≤ ·) values
  { Median := Median values
    Mean := Mean values
    StdDev := StdDev values
    Min := sorted.getD 0 0
    Max := sorted.getD (sorted.length - 1) 0
    CV := CV values
    Values := values }

/-- Embeds `statistics.HasOverlap`:
`!(statsA.Min > statsB.Max || statsB.Min > statsA.Max)`. -/
def HasOverlap (statsA statsB : Stats) : Bool :=
  !(decide (statsB.Max < statsA.Min) || decide (statsA.Max < statsB.Min))

/-! ## Mann-Whitney U test (src/internal/benchmark/statistics/hypothesis.go) -/

/-- Number of elements of `l` strictly below `v`. -/
def countLT (l : List ℚ) (v : ℚ) : ℕ :=
  (l.filter fun u => decide (u < v)).length

/-- Number of elements of `l` equal to `v`. -/
def countEQ (l : List ℚ) (v : ℚ) : ℕ :=
  (l.filter fun u => decide (u = v)).length

/-- Number of elements of `l` strictly above `v`. -/
def countGT (l : List ℚ) (v : ℚ) : ℕ :=
  (l.filter fun u => decide (v < u)).length

/-- The tie-averaged rank that `MannWhitneyU` assigns to value `v` within the
combined sample `l`.  The Go code sorts the combined sample and gives every
element of a maximal run of equal values (positions `i..j-1`, zero-based) the
average rank `(i+j+1)/2`; in the sorted order `i` is the number of elements
strictly below `v` and `j - i` the number equal to `v`, so the assigned rank
is `countLT + (countEQ + 1)/2`, independent of how `sort.Slice` (which is not
stable) ordered the tied elements. -/
def rankOf (l : List ℚ) (v : ℚ) : ℚ :=
  (countLT l v : ℚ) + ((countEQ l v : ℚ) + 1) / 2

/-- Sum of the ranks (within combined sample `l`) of the elements of `g`,
with multiplicity.  Embeds the `rankSumA` accumulation loop. -/
def rankSum (l g : List ℚ) : ℚ :=
  (g.map (rankOf l)).sum

/-- The standard Gaussian error function, the mathematical function that
`math.Erf` approximates. -/
noncomputable def erf (x : ℝ) : ℝ :=
  2 / Real.sqrt Real.pi * ∫ t in (0 : ℝ)..x, Real.exp (-t ^ 2)

/-- Embeds `normalCDF`: `0.5 * (1.0 + math.Erf(z / math.Sqrt2))`. -/
noncomputable def normalCDF (z : ℝ) : ℝ :=
  0.5 * (1 + erf (z / Real.sqrt 2))

/-- The statistic `U1 = rankSumA - n1*(n1+1)/2` of `MannWhitneyU`. -/
def mwuU1 (groupA groupB : List ℚ) : ℚ :=
  rankSum (groupA ++ groupB) groupA -
    (groupA.length : ℚ) * ((groupA.length : ℚ) + 1) / 2

/-- The statistic `U = math.Min(U1, U2)` of `MannWhitneyU`, with
`U2 = n1*n2 - U1`. -/
def mwuU (groupA groupB : List ℚ) : ℚ :=
  min (mwuU1 groupA groupB)
    ((groupA.length : ℚ) * (groupB.length : ℚ) - mwuU1 groupA groupB)

/-- The normal-approximation tail of `MannWhitneyU`:
`meanU = n1*n2/2`, `stdU = sqrt(n1*n2*(n1+n2+1)/12)`, returning `1.0` when
`stdU` is zero and `2 * normalCDF(-|z|)` with `z = (U - meanU)/stdU`
otherwise. -/
noncomputable def mwuP (n1 n2 : ℕ) (U : ℚ) : ℝ :=
  let meanU : ℚ := (n1 : ℚ) * (n2 : ℚ) / 2
  let stdU : ℝ := Real.sqrt ((((n1 * n2 * (n1 + n2 + 1) : ℕ) : ℚ) : ℝ) / 12)
  if stdU = 0 then 1 else
  let z : ℝ := (((U : ℝ)) - ((meanU : ℚ) : ℝ)) / stdU
  2 * normalCDF (-|z|)

/-- Embeds `MannWhitneyU` (hypothesis.go, lines 12-82): `1.0` when either
group is empty; otherwise the tie-corrected rank-sum statistic
`U = min(U1, U2)` fed into the two-tailed normal approximation `mwuP`. -/
noncomputable def MannWhitneyU (groupA groupB : List ℚ) : ℝ :=
  if groupA = [] ∨ groupB = [] then 1
  else mwuP groupA.length groupB.length (mwuU groupA groupB)

/-- Embeds the Go struct `statistics.Comparison`.  `Significant` is the
proposition carried by the Go boolean `pValue < 0.05`. -/
structure Comparison where
  MedianDiffPct : ℚ
  PValue : ℝ
  HasOverlap : Bool
  Significant : Prop

/-- Embeds `statistics.Compare` (hypothesis.go, lines 98-114). -/
noncomputable def Compare (statsA statsB : Stats) : Comparison :=
  { MedianDiffPct :=
      if statsA.Median ≠ 0 then (statsB.Median - statsA.Median) / statsA.Median * 100 else 0
    PValue := MannWhitneyU statsA.Values statsB.Values
    HasOverlap := HasOverlap statsA statsB
    Significant := MannWhitneyU statsA.Values statsB.Values < 0.05 }

/-! ## Concurrent insert executor (src/internal/benchmark/postgres/insert.go)

The operation callback is modelled as an oracle
`call : ℕ → ℕ → ℚ × Bool` giving, for a timed call at loop index `i` with
actual batch size `n`, the elapsed duration and whether the call succeeded
(`true`) or returned an error (`false`).  The engine never inspects the
callback beyond timing it and checking the error. -/

/-- Result accumulated by one worker: its local latency list and its success
and error operation counts. -/
structure WorkerResult where
  latencies : List ℚ
  success : ℕ
  errors : ℕ

/-- Embeds the `batchSize == 1` loop of `runInsertWorker`: one timed call per
record, each recording exactly one latency and bumping exactly one of the two
counters. -/
def singleLoop (call : ℕ → ℚ × Bool) (i : ℕ) : ℕ → WorkerResult
  | 0 => ⟨[], 0, 0⟩
  | n + 1 =>
    let r := call i
    let rest := singleLoop call (i + 1) n
    ⟨r.1 :: rest.latencies,
      (if r.2 then 1 else 0) + rest.success,
      (if r.2 then 0 else 1) + rest.errors⟩

/-- Embeds the batch loop of `runInsertWorker`: `for i := 0; i < records;
i += batchSize`, each iteration timing one call of actual size
`min batchSize (records - i)` and adding that size to the success or error
counter. -/
def batchLoop (call : ℕ → ℕ → ℚ × Bool) (records batchSize : ℕ) (hb : 0 < batchSize)
    (i : ℕ) : WorkerResult :=
  if _h : i < records then
    let actual := min batchSize (records - i)
    let r := call i actual
    let rest := batchLoop call records batchSize hb (i + batchSize)
    ⟨r.1 :: rest.latencies,
      (if r.2 then actual else 0) + rest.success,
      (if r.2 then 0 else actual) + rest.errors⟩
  else ⟨[], 0, 0⟩
termination_by records - i
decreasing_by omega

/-- Embeds `runInsertWorker` (insert.go, lines 94-128). -/
def runInsertWorker (call : ℕ → ℕ → ℚ × Bool) (records batchSize : ℕ)
    (hb : 0 < batchSize) : WorkerResult :=
  if batchSize = 1 then singleLoop (fun i => call i 1) 0 records
  else batchLoop call records batchSize hb 0

/-- The number of loop iterations (timed calls) of the batch loop of
`runInsertWorker` starting at index `i`. -/
def batchCalls (records batchSize : ℕ) (hb : 0 < batchSize) (i : ℕ) : ℕ :=
  if i < records then 1 + batchCalls records batchSize hb (i + batchSize) else 0
termination_by records - i
decreasing_by omega

/-- The number of timed callback invocations `runInsertWorker` performs. -/
def timedCalls (records batchSize : ℕ) (hb : 0 < batchSize) : ℕ :=
  if batchSize = 1 then records else batchCalls records batchSize hb 0

/-- Embeds `InsertRecordsConcurrent` (insert.go, lines 46-92): worker
`workerID` runs `numRecords / connections` records plus one when
`workerID < numRecords % connections`; the per-worker latency batches are
merged under one lock per worker and the success and error counters summed.
The merge order of the goroutines is immaterial to lengths and counts; the
embedding merges in worker order.  Returns
`(allLatencies, (totalSuccess, totalErrors))`. -/
def InsertRecordsConcurrent (call : ℕ → ℕ → ℕ → ℚ × Bool)
    (numRecords connections batchSize : ℕ) (hb : 0 < batchSize) :
    List ℚ × ℕ × ℕ :=
  let results := (List.range connections).map fun w =>
    runInsertWorker (call w) (workerOps numRecords connections w) batchSize hb
  ((results.map WorkerResult.latencies).flatten,
    ((results.map WorkerResult.success).sum, (results.map WorkerResult.errors).sum))

/-! ## Throughput (mixed.go lines 165-191, insert.go line 85)

Go computes throughputs with IEEE float division, which yields `+Inf` or
`NaN` on a zero denominator; `GoFloat` records that outcome explicitly. -/

/-- An IEEE float64 result that is either an exact finite value, an infinity,
or NaN. -/
inductive GoFloat where
  | finite (q : ℚ)
  | posInf
  | negInf
  | nan
deriving DecidableEq

/-- IEEE float64 division of exact values. -/
def goDiv (a b : ℚ) : GoFloat :=
  if b ≠ 0 then .finite (a / b)
  else if 0 < a then .posInf
  else if a < 0 then .negInf
  else .nan

/-- Embeds the per-kind insert-throughput computation of `RunMixedWorkload`
(mixed.go lines 167-173): zero unless the kind has ops and recorded
latencies, else `ops` divided by the SUM of that kind's per-operation
latencies (seconds).  The read and update throughputs follow the same
pattern. -/
def mixedKindThroughput (ops : ℕ) (latencies : List ℚ) : GoFloat :=
  if 0 < ops ∧ latencies ≠ [] then goDiv (ops : ℚ) latencies.sum
  else .finite 0

/-- Embeds `overallThroughput` of `RunMixedWorkload` (mixed.go line 191):
`float64(config.TotalOps) / duration.Seconds()` where `duration` is the
wall-clock time of the run, with no guard against a zero duration. -/
def overallThroughput (totalOps : ℕ) (wallClock : ℚ) : GoFloat :=
  goDiv (totalOps : ℚ) wallClock

/-- Embeds the `Throughput` field of `InsertRecordsConcurrent` (insert.go
line 85): `float64(numRecords) / duration.Seconds()` on the wall-clock
duration, with no guard against a zero duration. -/
def concurrentThroughput (numRecords : ℕ) (wallClock : ℚ) : GoFloat :=
  goDiv (numRecords : ℚ) wallClock

/-! ## Theorems -/

theorem sum_range_ite_lt (r : ℕ) :
    ∀ w : ℕ, r ≤ w → (∑ i ∈ Finset.range w, if i < r then (1 : ℕ) else 0) = r := by
  intro w
  induction w with
  | zero => intro h; interval_cases r; simp
  | succ n ih =>
    intro h
    rw [Finset.sum_range_succ]
    rcases Nat.lt_or_ge r (n + 1) with h1 | h1
    · have hr : r ≤ n := by omega
      rw [ih hr, if_neg (by omega), Nat.add_zero]
    · have hr : r = n + 1 := by omega
      subst hr
      rw [if_pos (by omega)]
      have he : (∑ i ∈ Finset.range n, if i < n + 1 then (1 : ℕ) else 0) =
          ∑ _i ∈ Finset.range n, 1 :=
        Finset.sum_congr rfl fun i hi => if_pos (by simpa using Nat.lt_succ_of_lt (Finset.mem_range.mp hi))
      rw [he, Finset.sum_const, Finset.card_range, smul_eq_mul, mul_one]

theorem workerOps_sum_eq (ops workers : ℕ) (h : 1 ≤ workers) :
    ∑ i ∈ Finset.range workers, workerOps ops workers i = ops := by
  unfold workerOps
  rw [Finset.sum_add_distrib, Finset.sum_const, Finset.card_range, smul_eq_mul,
    sum_range_ite_lt _ _ (le_of_lt (Nat.mod_lt ops h))]
  exact Nat.div_add_mod ops workers

/-- C4: for every operation kind with at least one worker, splitting the
assigned ops as `ops / workers` per worker plus one extra for each of the
first `ops % workers` workers assigns every operation exactly once: the
per-worker counts sum to exactly `ops`. -/
theorem C4_ops_split_exact (ops workers : ℕ) (h : 1 ≤ workers) :
    ∑ i ∈ Finset.range workers, workerOps ops workers i = ops :=
  workerOps_sum_eq ops workers h

/-- Witness for `C4_ops_split_exact` at `ops = 7`, `workers = 3`. -/
theorem C4_ops_split_exact_witness :
    1 ≤ 3 ∧ ∑ i ∈ Finset.range 3, workerOps 7 3 i = 7 :=
  ⟨by decide, C4_ops_split_exact 7 3 (by decide)⟩

/-- C1 counterexample: at `totalWorkers = 2` and ops `(98, 1, 1)` every input
constraint of the claim holds and the forced minimums push the preliminary
allocation `(1, 1, 1)` over the budget, but no kind has more than one worker,
so the surplus-removal chain removes nothing and the returned counts sum to
`3`, not `2`. -/
theorem C1_counterexample :
    prelimWorkers 2 98 1 1 = (1, 1, 1) ∧
    2 < (prelimWorkers 2 98 1 1).1 + (prelimWorkers 2 98 1 1).2.1 +
      (prelimWorkers 2 98 1 1).2.2 ∧
    calculateWorkerDistribution 2 98 1 1 = (1, 1, 1) ∧
    ¬((calculateWorkerDistribution 2 98 1 1).1 +
        (calculateWorkerDistribution 2 98 1 1).2.1 +
        (calculateWorkerDistribution 2 98 1 1).2.2 = 2) := by
  refine ⟨by decide, by decide, by decide, by decide⟩

/-- C1 (amended): when the proportional allocations plus the forced
one-worker minimums exceed `totalWorkers` AND some kind has more than one
allocated worker, the whole surplus is removed in a single subtraction from
the first kind of the `insert ≥ read ≥ update` tie-break chain that has more
than one worker, so the returned counts sum to exactly `totalWorkers`; when
every kind has at most one worker the surplus is not removed and the
preliminary counts are returned unchanged. -/
theorem C1_surplus_removal (tc i r u : ℕ) (h0 : 0 < i + r + u)
    (hover : tc < (prelimWorkers tc i r u).1 + (prelimWorkers tc i r u).2.1 +
      (prelimWorkers tc i r u).2.2) :
    ((1 < (prelimWorkers tc i r u).1 ∨ 1 < (prelimWorkers tc i r u).2.1 ∨
        1 < (prelimWorkers tc i r u).2.2) →
      (calculateWorkerDistribution tc i r u).1 +
        (calculateWorkerDistribution tc i r u).2.1 +
        (calculateWorkerDistribution tc i r u).2.2 = tc)
    ∧ ((prelimWorkers tc i r u).1 ≤ 1 → (prelimWorkers tc i r u).2.1 ≤ 1 →
        (prelimWorkers tc i r u).2.2 ≤ 1 →
      calculateWorkerDistribution tc i r u =
        (((prelimWorkers tc i r u).1 : ℤ), ((prelimWorkers tc i r u).2.1 : ℤ),
          ((prelimWorkers tc i r u).2.2 : ℤ))) := by
  have hne : ¬(i + r + u = 0) := by omega
  simp only [calculateWorkerDistribution, if_neg hne]
  generalize (prelimWorkers tc i r u).1 = a at *
  generalize (prelimWorkers tc i r u).2.1 = b at *
  generalize (prelimWorkers tc i r u).2.2 = c at *
  constructor
  · intro hbig
    split_ifs with h1 h2 h3 h4 <;> simp_all <;> omega
  · intro ha hb hc
    split_ifs with h1 h2 h3 h4 <;> simp_all <;> omega

/-- Witness for `C1_surplus_removal` at `totalWorkers = 3`, ops `(98, 1, 1)`:
the preliminary allocation is `(2, 1, 1)` (sum `4 > 3`), insert has more than
one worker, and the returned counts sum to `3`. -/
theorem C1_surplus_removal_witness :
    0 < 98 + 1 + 1 ∧
    3 < (prelimWorkers 3 98 1 1).1 + (prelimWorkers 3 98 1 1).2.1 +
      (prelimWorkers 3 98 1 1).2.2 ∧
    1 < (prelimWorkers 3 98 1 1).1 ∧
    (calculateWorkerDistribution 3 98 1 1).1 +
      (calculateWorkerDistribution 3 98 1 1).2.1 +
      (calculateWorkerDistribution 3 98 1 1).2.2 = 3 :=
  ⟨by decide, by decide, by decide,
    (C1_surplus_removal 3 98 1 1 (by decide) (by decide)).1 (Or.inl (by decide))⟩

/-- C5: for a nonempty latency sequence of length `n`, `CalculatePercentiles`
returns the elements of the ascending-sorted sequence at zero-based indices
`n*50/100`, `n*95/100`, `n*99/100` (nearest rank, Go integer division, no
interpolation), all of which are in range; for the empty sequence it returns
`(0, 0, 0)`. -/
theorem C5_percentiles_nearest_rank :
    (∀ l s : List ℚ, l ≠ [] → s.Perm l → s.Sorted (· ≤ ·) →
      CalculatePercentiles l =
        (s.getD (l.length * 50 / 100) 0, s.getD (l.length * 95 / 100) 0,
          s.getD (l.length * 99 / 100) 0) ∧
      l.length * 50 / 100 < l.length ∧ l.length * 95 / 100 < l.length ∧
      l.length * 99 / 100 < l.length)
    ∧ CalculatePercentiles [] = (0, 0, 0) := by
  constructor
  · intro l s hl hperm hsorted
    have hpos : 0 < l.length := List.length_pos.mpr hl
    have hs : s = List.insertionSort (· ≤ ·) l :=
      List.eq_of_perm_of_sorted (hperm.trans (List.perm_insertionSort _ l).symm)
        hsorted (List.sorted_insertionSort _ l)
    refine ⟨?_, by omega, by omega, by omega⟩
    rw [CalculatePercentiles, if_neg hl, hs]
  · rfl

/-- Witness for `C5_percentiles_nearest_rank` at `l = [3, 1, 2]`,
`s = [1, 2, 3]`. -/
theorem C5_percentiles_nearest_rank_witness :
    ([3, 1, 2] : List ℚ) ≠ [] ∧
    CalculatePercentiles [3, 1, 2] = (2, 3, 3) ∧
    (3 : ℕ) * 50 / 100 < 3 := by
  have h := C5_percentiles_nearest_rank.1 [3, 1, 2] [1, 2, 3]
    (by simp) (by decide) (by decide)
  exact ⟨by simp, by rw [h.1]; norm_num, h.2.1⟩

theorem sorted_getElem_mono {s : List ℚ} (hs : s.Sorted (· ≤ ·)) {i j : ℕ}
    (hi : i < s.length) (hj : j < s.length) (hij : i ≤ j) : s[i] ≤ s[j] := by
  rcases Nat.lt_or_ge i j with h | h
  · exact List.pairwise_iff_getElem.mp hs i j hi hj h
  · have hij' : i = j := le_antisymm hij h
    subst hij'
    exact le_refl _

/-- C9: `CalculatePercentiles` returns the same triple for every permutation
of its input, and on every nonempty input the returned percentiles satisfy
`p50 ≤ p95 ≤ p99`. -/
theorem C9_percentiles_perm_invariant_mono :
    (∀ l₁ l₂ : List ℚ, l₁.Perm l₂ → CalculatePercentiles l₁ = CalculatePercentiles l₂)
    ∧ (∀ l : List ℚ, l ≠ [] →
        (CalculatePercentiles l).1 ≤ (CalculatePercentiles l).2.1 ∧
        (CalculatePercentiles l).2.1 ≤ (CalculatePercentiles l).2.2) := by
  constructor
  · intro l₁ l₂ hperm
    rcases eq_or_ne l₁ [] with rfl | h1
    · rw [hperm.nil_eq.symm]
    · have h2 : l₂ ≠ [] := by
        intro h; rw [h] at hperm; exact h1 hperm.eq_nil
      have hsort : List.insertionSort (· ≤ ·) l₁ = List.insertionSort (· ≤ ·) l₂ :=
        List.eq_of_perm_of_sorted
          ((List.perm_insertionSort _ l₁).trans (hperm.trans (List.perm_insertionSort _ l₂).symm))
          (List.sorted_insertionSort _ l₁) (List.sorted_insertionSort _ l₂)
      rw [CalculatePercentiles, CalculatePercentiles, if_neg h1, if_neg h2, hsort,
        hperm.length_eq]
  · intro l hl
    have hpos : 0 < l.length := List.length_pos.mpr hl
    have hlen : (List.insertionSort (· ≤ ·) l).length = l.length :=
      (List.perm_insertionSort _ l).length_eq
    have hsorted : (List.insertionSort (· ≤ ·) l).Sorted (· ≤ ·) :=
      List.sorted_insertionSort _ l
    have h50 : l.length * 50 / 100 < (List.insertionSort (· ≤ ·) l).length := by omega
    have h95 : l.length * 95 / 100 < (List.insertionSort (· ≤ ·) l).length := by omega
    have h99 : l.length * 99 / 100 < (List.insertionSort (· ≤ ·) l).length := by omega
    rw [CalculatePercentiles, if_neg hl]
    refine ⟨?_, ?_⟩
    · show (List.insertionSort (· ≤ ·) l).getD (l.length * 50 / 100) 0 ≤
        (List.insertionSort (· ≤ ·) l).getD (l.length * 95 / 100) 0
      rw [List.getD_eq_getElem _ _ h50, List.getD_eq_getElem _ _ h95]
      exact sorted_getElem_mono hsorted h50 h95 (by omega)
    · show (List.insertionSort (· ≤ ·) l).getD (l.length * 95 / 100) 0 ≤
        (List.insertionSort (· ≤ ·) l).getD (l.length * 99 / 100) 0
      rw [List.getD_eq_getElem _ _ h95, List.getD_eq_getElem _ _ h99]
      exact sorted_getElem_mono hsorted h95 h99 (by omega)

/-- Witness for `C9_percentiles_perm_invariant_mono` at `[5, 2, 9]` and its
permutation `[9, 5, 2]`. -/
theorem C9_percentiles_perm_invariant_mono_witness :
    CalculatePercentiles [5, 2, 9] = CalculatePercentiles [9, 5, 2] ∧
    (CalculatePercentiles [5, 2, 9]).1 ≤ (CalculatePercentiles [5, 2, 9]).2.1 ∧
    (CalculatePercentiles [5, 2, 9]).2.1 ≤ (CalculatePercentiles [5, 2, 9]).2.2 :=
  ⟨C9_percentiles_perm_invariant_mono.1 [5, 2, 9] [9, 5, 2] (by decide),
    (C9_percentiles_perm_invariant_mono.2 [5, 2, 9] (by simp)).1,
    (C9_percentiles_perm_invariant_mono.2 [5, 2, 9] (by simp)).2⟩

/-- C7: aggregating a one-element sequence `[x]` (any `x`, including `0`)
yields median `x`, mean `x`, standard deviation `0`, min `x`, max `x`, and
coefficient of variation `0`, with the raw values retained. -/
theorem C7_single_value_stats (x : ℚ) :
    Calculate [x] = ⟨x, x, 0, x, x, 0, [x]⟩ := by
  have hmean : Mean [x] = x := by simp [Mean]
  have hsd : StdDev [x] = 0 := by simp [StdDev]
  have hcv : CV [x] = 0 := by
    unfold CV
    split_ifs with h
    · rfl
    · rw [hsd, zero_div, zero_mul]
  have hmed : Median [x] = x := by
    rw [Median, if_neg (by simp)]
    norm_num [List.insertionSort, List.orderedInsert]
  unfold Calculate
  rw [if_neg (by simp)]
  simp only [Stats.mk.injEq, List.insertionSort, List.orderedInsert]
  refine ⟨hmed, hmean, hsd, rfl, rfl, hcv, trivial⟩

/-- C3 counterexample: the per-kind insert throughput of `RunMixedWorkload`
for one completed op with a single recorded latency of `2` seconds is `1/2`
ops/s irrespective of the run's wall-clock duration (for a wall clock of `1`
second the claim demands `1`), and a zero wall-clock duration makes the
concurrent insert throughput `+Inf`, not `0`. -/
theorem C3_counterexample :
    mixedKindThroughput 1 [2] = .finite (1 / 2) ∧
    GoFloat.finite (1 / 2) ≠ .finite ((1 : ℚ) / 1) ∧
    concurrentThroughput 5 0 = .posInf ∧
    GoFloat.posInf ≠ .finite 0 := by
  refine ⟨?_, ?_, ?_, ?_⟩
  · rw [mixedKindThroughput, if_pos ⟨by norm_num, by simp⟩]
    rw [goDiv, if_pos (by norm_num)]
    norm_num
  · intro h
    rw [GoFloat.finite.injEq] at h
    norm_num at h
  · rw [concurrentThroughput, goDiv, if_neg (by norm_num), if_pos (by norm_num)]
  · intro h
    exact GoFloat.noConfusion h

/-- C3 (amended): the overall mixed-workload throughput and the concurrent
insert throughput are ops divided by the wall-clock duration with no
zero-duration guard, so a zero wall clock yields `+Inf` (positive ops) or
`NaN` (zero ops) rather than `0`; the per-kind mixed-workload throughputs
divide the kind's op count by the SUM of that kind's recorded per-operation
latencies, and are `0` exactly when the kind has no ops or no recorded
latencies. -/
theorem C3_throughput_characterization :
    (∀ (n : ℕ) (d : ℚ), d ≠ 0 → concurrentThroughput n d = .finite ((n : ℚ) / d)) ∧
    (∀ n : ℕ, 0 < n → concurrentThroughput n 0 = .posInf) ∧
    concurrentThroughput 0 0 = .nan ∧
    (∀ (n : ℕ) (d : ℚ), overallThroughput n d = concurrentThroughput n d) ∧
    (∀ (ops : ℕ) (lats : List ℚ), 0 < ops → lats ≠ [] →
      mixedKindThroughput ops lats = goDiv (ops : ℚ) lats.sum) ∧
    (∀ (ops : ℕ) (lats : List ℚ), ops = 0 ∨ lats = [] →
      mixedKindThroughput ops lats = .finite 0) := by
  refine ⟨?_, ?_, ?_, ?_, ?_, ?_⟩
  · intro n d hd
    rw [concurrentThroughput, goDiv, if_pos hd]
  · intro n hn
    rw [concurrentThroughput, goDiv, if_neg (by simp), if_pos (by exact_mod_cast hn)]
  · rfl
  · intro n d
    rfl
  · intro ops lats hops hlats
    rw [mixedKindThroughput, if_pos ⟨hops, hlats⟩]
  · intro ops lats h
    rcases h with h | h
    · rw [mixedKindThroughput, if_neg (by simp [h])]
    · rw [mixedKindThroughput, if_neg (by simp [h])]

/-- Witness for `C3_throughput_characterization` at concrete inputs. -/
theorem C3_throughput_characterization_witness :
    concurrentThroughput 4 2 = .finite ((4 : ℚ) / 2) ∧
    concurrentThroughput 5 0 = .posInf ∧
    mixedKindThroughput 1 [2] = goDiv (1 : ℚ) ([2] : List ℚ).sum ∧
    mixedKindThroughput 0 [2] = .finite 0 :=
  ⟨C3_throughput_characterization.1 4 2 (by norm_num),
    C3_throughput_characterization.2.1 5 (by norm_num),
    C3_throughput_characterization.2.2.2.2.1 1 [2] (by norm_num) (by simp),
    C3_throughput_characterization.2.2.2.2.2 0 [2] (Or.inl rfl)⟩

/-! ### Rank-sum lemmas for the Mann-Whitney statistic -/

theorem countLT_cons (x v : ℚ) (l : List ℚ) :
    countLT (x :: l) v = (if x < v then 1 else 0) + countLT l v := by
  rw [countLT, List.filter_cons]
  split_ifs with h h1 h2 <;> simp_all [countLT]
  omega

theorem countEQ_cons (x v : ℚ) (l : List ℚ) :
    countEQ (x :: l) v = (if x = v then 1 else 0) + countEQ l v := by
  rw [countEQ, List.filter_cons]
  split_ifs with h h1 h2 <;> simp_all [countEQ]
  omega

theorem countGT_cons (x v : ℚ) (l : List ℚ) :
    countGT (x :: l) v = (if v < x then 1 else 0) + countGT l v := by
  rw [countGT, List.filter_cons]
  split_ifs with h h1 h2 <;> simp_all [countGT]
  omega

theorem countGT_eq_sum (x : ℚ) (l : List ℚ) :
    countGT l x = (l.map fun v => if x < v then 1 else 0).sum := by
  induction l with
  | nil => rfl
  | cons y l ih => rw [countGT_cons, List.map_cons, List.sum_cons, ih]

theorem countLT_eq_sum (x : ℚ) (l : List ℚ) :
    countLT l x = (l.map fun v => if v < x then 1 else 0).sum := by
  induction l with
  | nil => rfl
  | cons y l ih =>
    rw [countLT_cons y x, List.map_cons, List.sum_cons, ih]

theorem sum_map_add {M : Type} [AddCommMonoid M] (f g : ℚ → M) (l : List ℚ) :
    (l.map fun v => f v + g v).sum = (l.map f).sum + (l.map g).sum := by
  induction l with
  | nil => simp
  | cons x l ih =>
    simp only [List.map_cons, List.sum_cons, ih]
    rw [add_add_add_comm]

theorem sum_countLT_eq_sum_countGT (l : List ℚ) :
    (l.map fun v => countLT l v).sum = (l.map fun v => countGT l v).sum := by
  induction l with
  | nil => rfl
  | cons x l ih =>
    simp only [List.map_cons, List.sum_cons]
    have h1 : countLT (x :: l) x = countLT l x := by
      rw [countLT_cons, if_neg (lt_irrefl x), Nat.zero_add]
    have h1' : countGT (x :: l) x = countGT l x := by
      rw [countGT_cons, if_neg (lt_irrefl x), Nat.zero_add]
    have h2 : (l.map fun v => countLT (x :: l) v).sum =
        countGT l x + (l.map fun v => countLT l v).sum := by
      have he : (l.map fun v => countLT (x :: l) v) =
          l.map fun v => (if x < v then 1 else 0) + countLT l v :=
        List.map_congr_left fun v _ => countLT_cons x v l
      rw [he, sum_map_add, ← countGT_eq_sum]
    have h3 : (l.map fun v => countGT (x :: l) v).sum =
        countLT l x + (l.map fun v => countGT l v).sum := by
      have he : (l.map fun v => countGT (x :: l) v) =
          l.map fun v => (if v < x then 1 else 0) + countGT l v :=
        List.map_congr_left fun v _ => countGT_cons x v l
      rw [he, sum_map_add, ← countLT_eq_sum]
    rw [h1, h1', h2, h3, ih]
    omega

theorem count_partition (l : List ℚ) (v : ℚ) :
    countLT l v + countEQ l v + countGT l v = l.length := by
  induction l with
  | nil => rfl
  | cons x l ih =>
    rw [countLT_cons, countEQ_cons, countGT_cons, List.length_cons]
    rcases lt_trichotomy x v with h | h | h
    · rw [if_pos h, if_neg (ne_of_lt h), if_neg (not_lt_of_lt h)]
      omega
    · rw [if_neg (by rw [h]; exact lt_irrefl v), if_pos h, if_neg (by rw [h]; exact lt_irrefl v)]
      omega
    · rw [if_neg (not_lt_of_lt h), if_neg (ne_of_gt h), if_pos h]
      omega

theorem rankSum_two (l g : List ℚ) :
    2 * rankSum l g = 2 * (((g.map fun v => countLT l v).sum : ℕ) : ℚ) +
      (((g.map fun v => countEQ l v).sum : ℕ) : ℚ) + (g.length : ℚ) := by
  induction g with
  | nil => simp [rankSum]
  | cons x g ih =>
    have hstep : rankSum l (x :: g) = rankOf l x + rankSum l g := by
      rw [rankSum, List.map_cons, List.sum_cons, rankSum]
    rw [hstep, List.map_cons, List.sum_cons, List.map_cons, List.sum_cons, List.length_cons,
      rankOf]
    push_cast
    push_cast at ih
    linarith

theorem rankSum_self (l : List ℚ) :
    rankSum l l = (l.length : ℚ) * ((l.length : ℚ) + 1) / 2 := by
  have h2 := rankSum_two l l
  have hS := sum_countLT_eq_sum_countGT l
  have hpart : (l.map fun v => countLT l v).sum + (l.map fun v => countEQ l v).sum +
      (l.map fun v => countGT l v).sum = l.length * l.length := by
    have hsplit : (l.map fun v => countLT l v + countEQ l v + countGT l v).sum =
        (l.map fun v => countLT l v).sum + (l.map fun v => countEQ l v).sum +
          (l.map fun v => countGT l v).sum := by
      rw [show (fun v => countLT l v + countEQ l v + countGT l v) =
          fun v => (countLT l v + countEQ l v) + countGT l v from rfl,
        sum_map_add (fun v => countLT l v + countEQ l v) (fun v => countGT l v),
        sum_map_add (fun v => countLT l v) (fun v => countEQ l v)]
    have hconst : (l.map fun v => countLT l v + countEQ l v + countGT l v).sum =
        (l.map fun _ => l.length).sum := by
      exact congrArg _ (List.map_congr_left fun v _ => count_partition l v)
    have hc : (l.map fun _ : ℚ => l.length).sum = l.length * l.length := by
      rw [List.map_const', List.sum_replicate, smul_eq_mul]
    rw [← hsplit, hconst, hc]
  have hq : ((((l.map fun v => countLT l v).sum : ℕ) : ℚ)) =
      (((l.map fun v => countGT l v).sum : ℕ) : ℚ) := by exact_mod_cast hS
  have hpq : ((((l.map fun v => countLT l v).sum : ℕ) : ℚ)) +
      (((l.map fun v => countEQ l v).sum : ℕ) : ℚ) +
      (((l.map fun v => countGT l v).sum : ℕ) : ℚ) = (l.length : ℚ) * (l.length : ℚ) := by
    exact_mod_cast hpart
  linarith

theorem rankOf_congr_perm {l₁ l₂ : List ℚ} (h : l₁.Perm l₂) (v : ℚ) :
    rankOf l₁ v = rankOf l₂ v := by
  rw [rankOf, rankOf, countLT, countLT, countEQ, countEQ,
    (h.filter _).length_eq, (h.filter _).length_eq]

theorem rankSum_perm_left {l₁ l₂ : List ℚ} (h : l₁.Perm l₂) (g : List ℚ) :
    rankSum l₁ g = rankSum l₂ g := by
  rw [rankSum, rankSum]
  exact congrArg _ (List.map_congr_left fun v _ => rankOf_congr_perm h v)

theorem rankSum_append_right (l g₁ g₂ : List ℚ) :
    rankSum l (g₁ ++ g₂) = rankSum l g₁ + rankSum l g₂ := by
  rw [rankSum, rankSum, rankSum, List.map_append, List.sum_append]

theorem mwuU1_add (a b : List ℚ) :
    mwuU1 a b + mwuU1 b a = (a.length : ℚ) * (b.length : ℚ) := by
  rw [mwuU1, mwuU1, rankSum_perm_left (@List.perm_append_comm ℚ b a) b]
  have h2 : rankSum (a ++ b) a + rankSum (a ++ b) b = rankSum (a ++ b) (a ++ b) :=
    (rankSum_append_right _ a b).symm
  have h3 : rankSum (a ++ b) (a ++ b) =
      ((a.length : ℚ) + (b.length : ℚ)) * (((a.length : ℚ) + (b.length : ℚ)) + 1) / 2 := by
    rw [rankSum_self]
    push_cast [List.length_append]
    ring
  rw [h3] at h2
  linear_combination h2

theorem mwuU_symm (a b : List ℚ) : mwuU a b = mwuU b a := by
  have h2 : mwuU1 b a = (a.length : ℚ) * (b.length : ℚ) - mwuU1 a b := by
    have h := mwuU1_add a b
    linarith
  rw [mwuU, mwuU, h2,
    show (b.length : ℚ) * (a.length : ℚ) - ((a.length : ℚ) * (b.length : ℚ) - mwuU1 a b) =
      mwuU1 a b by ring]
  exact min_comm _ _

theorem mwuP_symm (n1 n2 : ℕ) (U : ℚ) : mwuP n1 n2 U = mwuP n2 n1 U := by
  rw [mwuP, mwuP,
    show n1 * n2 * (n1 + n2 + 1) = n2 * n1 * (n2 + n1 + 1) by ring,
    show (n1 : ℚ) * (n2 : ℚ) / 2 = (n2 : ℚ) * (n1 : ℚ) / 2 by ring]

/-- C10: the Mann-Whitney p-value is symmetric in its two groups: which
group is passed as baseline and which as candidate does not change the
result. -/
theorem C10_mwu_symmetric (a b : List ℚ) : MannWhitneyU a b = MannWhitneyU b a := by
  rw [MannWhitneyU, MannWhitneyU]
  by_cases h : a = [] ∨ b = []
  · rw [if_pos h, if_pos (Or.symm h)]
  · rw [if_neg h, if_neg fun hc => h (Or.symm hc), mwuU_symm, mwuP_symm]

/-- C6: `Compare` resolves its degenerate inputs by fixed convention, never
by an error: a zero baseline median gives `medianDiffPercent = 0`; an empty
group on either side gives p-value `1.0`; a zero standard deviation of the
U statistic gives p-value `1.0`; and a p-value of `1.0` is never reported
significant. -/
theorem C6_degenerate_conventions :
    (∀ sA sB : Stats, sA.Median = 0 → (Compare sA sB).MedianDiffPct = 0) ∧
    (∀ b : List ℚ, MannWhitneyU [] b = 1) ∧
    (∀ a : List ℚ, MannWhitneyU a [] = 1) ∧
    (∀ a b : List ℚ,
      Real.sqrt ((((a.length * b.length * (a.length + b.length + 1) : ℕ) : ℚ) : ℝ) / 12) = 0 →
      MannWhitneyU a b = 1) ∧
    (∀ sA sB : Stats, (Compare sA sB).PValue = 1 → ¬(Compare sA sB).Significant) := by
  refine ⟨?_, ?_, ?_, ?_, ?_⟩
  · intro sA sB h
    simp only [Compare]
    rw [if_neg (not_not_intro h)]
  · intro b
    rw [MannWhitneyU, if_pos (Or.inl rfl)]
  · intro a
    rw [MannWhitneyU, if_pos (Or.inr rfl)]
  · intro a b h
    by_cases hab : a = [] ∨ b = []
    · rw [MannWhitneyU, if_pos hab]
    · rw [MannWhitneyU, if_neg hab, mwuP]
      simp only []
      rw [if_pos h]
  · intro sA sB h hsig
    simp only [Compare] at h hsig
    rw [h] at hsig
    norm_num at hsig

/-- Witness for `C6_degenerate_conventions` at concrete degenerate inputs. -/
theorem C6_degenerate_conventions_witness :
    (Compare ⟨0, 0, 0, 0, 0, 0, []⟩ ⟨7, 7, 0, 7, 7, 0, [7]⟩).MedianDiffPct = 0 ∧
    MannWhitneyU [] [5] = 1 ∧
    MannWhitneyU [5] [] = 1 ∧
    MannWhitneyU [] [] = 1 ∧
    ¬(Compare ⟨0, 0, 0, 0, 0, 0, []⟩ ⟨7, 7, 0, 7, 7, 0, [7]⟩).Significant := by
  refine ⟨C6_degenerate_conventions.1 _ _ rfl,
    C6_degenerate_conventions.2.1 [5],
    C6_degenerate_conventions.2.2.1 [5],
    C6_degenerate_conventions.2.2.2.1 [] [] (by norm_num),
    C6_degenerate_conventions.2.2.2.2 _ _ ?_⟩
  show (Compare _ _).PValue = 1
  simp only [Compare]
  exact C6_degenerate_conventions.2.1 [7]

/-! ### Gaussian tail bound for the significance claim -/

theorem integrableOn_exp_neg_sq (s : Set ℝ) :
    MeasureTheory.IntegrableOn (fun t : ℝ => Real.exp (-t ^ 2)) s := by
  have h : MeasureTheory.Integrable fun x : ℝ => Real.exp (-1 * x ^ 2) :=
    integrable_exp_neg_mul_sq zero_lt_one
  have h2 : MeasureTheory.IntegrableOn (fun x : ℝ => Real.exp (-1 * x ^ 2)) s :=
    h.integrableOn
  simpa using h2

theorem integrableOn_mul_exp_neg_sq (s : Set ℝ) :
    MeasureTheory.IntegrableOn (fun t : ℝ => t * Real.exp (-t ^ 2)) s := by
  have h : MeasureTheory.Integrable fun x : ℝ => x * Real.exp (-1 * x ^ 2) :=
    integrable_mul_exp_neg_mul_sq zero_lt_one
  have h2 : MeasureTheory.IntegrableOn (fun x : ℝ => x * Real.exp (-1 * x ^ 2)) s :=
    h.integrableOn
  simpa using h2

theorem integral_Ioi_mul_exp_neg_sq (c : ℝ) :
    ∫ t in Set.Ioi c, t * Real.exp (-t ^ 2) = Real.exp (-c ^ 2) / 2 := by
  have hderiv : ∀ x ∈ Set.Ici c,
      HasDerivAt (fun t : ℝ => -Real.exp (-t ^ 2) / 2) (x * Real.exp (-x ^ 2)) x := by
    intro x _
    have h1 : HasDerivAt (fun t : ℝ => -t ^ 2) (-(2 * x)) x := by
      have h0 := (hasDerivAt_pow 2 x).neg
      convert h0 using 1
      push_cast
      ring
    have h2 : HasDerivAt (fun t : ℝ => Real.exp (-t ^ 2))
        (Real.exp (-x ^ 2) * -(2 * x)) x := h1.exp
    have h3 := h2.neg.div_const 2
    convert h3 using 1
    ring
  have htend : Filter.Tendsto (fun t : ℝ => -Real.exp (-t ^ 2) / 2)
      Filter.atTop (nhds 0) := by
    have h1 : Filter.Tendsto (fun t : ℝ => -t ^ 2) Filter.atTop Filter.atBot := by
      have h0 : Filter.Tendsto (fun t : ℝ => t ^ 2) Filter.atTop Filter.atTop :=
        Filter.tendsto_pow_atTop (by norm_num)
      exact Filter.tendsto_neg_atBot_iff.mpr h0
    have h2 : Filter.Tendsto (fun t : ℝ => Real.exp (-t ^ 2)) Filter.atTop (nhds 0) :=
      Real.tendsto_exp_atBot.comp h1
    have h3 := h2.neg.div_const 2
    simpa using h3
  have hres := MeasureTheory.integral_Ioi_of_hasDerivAt_of_tendsto' hderiv
    (integrableOn_mul_exp_neg_sq _) htend
  rw [hres]
  ring

theorem integral_Ioi_exp_neg_sq_le (c : ℝ) (hc : 0 < c) :
    ∫ t in Set.Ioi c, Real.exp (-t ^ 2) ≤ Real.exp (-c ^ 2) / (2 * c) := by
  have hint1 := integrableOn_exp_neg_sq (Set.Ioi c)
  have hint2 : MeasureTheory.IntegrableOn
      (fun t : ℝ => t / c * Real.exp (-t ^ 2)) (Set.Ioi c) := by
    have he : (fun t : ℝ => t / c * Real.exp (-t ^ 2)) =
        fun t : ℝ => (1 / c) * (t * Real.exp (-t ^ 2)) := by
      funext t
      ring
    rw [he]
    exact (integrableOn_mul_exp_neg_sq _).const_mul _
  have hmono : ∀ t ∈ Set.Ioi c, Real.exp (-t ^ 2) ≤ t / c * Real.exp (-t ^ 2) := by
    intro t ht
    have h1 : (1 : ℝ) ≤ t / c := (one_le_div hc).mpr (le_of_lt ht)
    nlinarith [Real.exp_pos (-t ^ 2)]
  have hle := MeasureTheory.setIntegral_mono_on hint1 hint2 measurableSet_Ioi hmono
  have heq : ∫ t in Set.Ioi c, t / c * Real.exp (-t ^ 2)
      = (1 / c) * ∫ t in Set.Ioi c, t * Real.exp (-t ^ 2) := by
    rw [← MeasureTheory.integral_mul_left]
    congr 1
    funext t
    ring
  rw [heq, integral_Ioi_mul_exp_neg_sq] at hle
  calc ∫ t in Set.Ioi c, Real.exp (-t ^ 2) ≤ 1 / c * (Real.exp (-c ^ 2) / 2) := hle
    _ = Real.exp (-c ^ 2) / (2 * c) := by
        field_simp
        ring

theorem integral_gaussian_Ioi_zero :
    ∫ t in Set.Ioi (0 : ℝ), Real.exp (-t ^ 2) = Real.sqrt Real.pi / 2 := by
  have h := integral_gaussian_Ioi 1
  simpa using h

theorem erf_tail (c : ℝ) (hc : 0 < c) :
    1 - erf c ≤ Real.exp (-c ^ 2) / (c * Real.sqrt Real.pi) := by
  have hπ : 0 < Real.sqrt Real.pi := Real.sqrt_pos.mpr Real.pi_pos
  have hsplit : (∫ t in Set.Ioi (0 : ℝ), Real.exp (-t ^ 2)) =
      (∫ t in (0 : ℝ)..c, Real.exp (-t ^ 2)) + ∫ t in Set.Ioi c, Real.exp (-t ^ 2) := by
    rw [intervalIntegral.integral_of_le (le_of_lt hc)]
    rw [← Set.Ioc_union_Ioi_eq_Ioi (le_of_lt hc)]
    exact MeasureTheory.setIntegral_union (Set.Ioc_disjoint_Ioi le_rfl) measurableSet_Ioi
      (integrableOn_exp_neg_sq _) (integrableOn_exp_neg_sq _)
  have htail := integral_Ioi_exp_neg_sq_le c hc
  rw [integral_gaussian_Ioi_zero] at hsplit
  rw [erf]
  have h1 : 1 - 2 / Real.sqrt Real.pi * ∫ t in (0 : ℝ)..c, Real.exp (-t ^ 2)
      = 2 / Real.sqrt Real.pi * ∫ t in Set.Ioi c, Real.exp (-t ^ 2) := by
    have h2 : (∫ t in (0 : ℝ)..c, Real.exp (-t ^ 2)) =
        Real.sqrt Real.pi / 2 - ∫ t in Set.Ioi c, Real.exp (-t ^ 2) := by
      linarith
    rw [h2]
    field_simp
    ring
  rw [h1]
  calc 2 / Real.sqrt Real.pi * ∫ t in Set.Ioi c, Real.exp (-t ^ 2)
      ≤ 2 / Real.sqrt Real.pi * (Real.exp (-c ^ 2) / (2 * c)) := by
        apply mul_le_mul_of_nonneg_left htail
        positivity
    _ = Real.exp (-c ^ 2) / (c * Real.sqrt Real.pi) := by
        field_simp
        ring

theorem erf_neg (x : ℝ) : erf (-x) = -erf x := by
  rw [erf, erf]
  have h : (∫ t in (0 : ℝ)..(-x), Real.exp (-t ^ 2)) =
      -∫ t in (0 : ℝ)..x, Real.exp (-t ^ 2) := by
    have h1 : (∫ t in (0 : ℝ)..(-x), Real.exp (-t ^ 2)) =
        ∫ t in (0 : ℝ)..(-x), Real.exp (-(-t) ^ 2) := by
      congr 1
      funext t
      rw [neg_sq]
    rw [h1, intervalIntegral.integral_comp_neg (fun t => Real.exp (-t ^ 2))]
    rw [neg_neg, neg_zero]
    rw [intervalIntegral.integral_symm]
  rw [h]
  ring

theorem exp_three_gt : (20 : ℝ) < Real.exp 3 := by
  have h := Real.exp_one_gt_d9
  have h3 : Real.exp 3 = Real.exp 1 ^ 3 := by
    rw [← Real.exp_nat_mul]
    norm_num
  rw [h3]
  calc (20 : ℝ) < 2.7182818283 ^ 3 := by norm_num
    _ ≤ Real.exp 1 ^ 3 := pow_le_pow_left₀ (by norm_num) (le_of_lt h) 3

theorem one_sub_erf_lt (c : ℝ) (hcpos : 0 < c) (hc2 : c ^ 2 = 75 / 22) :
    1 - erf c < 0.05 := by
  have hc18 : (9 / 5 : ℝ) ≤ c := by nlinarith
  have hsqrtpi : (7 / 4 : ℝ) ≤ Real.sqrt Real.pi := by
    rw [show (7 / 4 : ℝ) = Real.sqrt ((7 / 4) ^ 2) from (Real.sqrt_sq (by norm_num)).symm]
    apply Real.sqrt_le_sqrt
    nlinarith [Real.pi_gt_d6]
  have hexp : Real.exp (-c ^ 2) < 1 / 20 := by
    rw [hc2]
    have h1 : Real.exp (-(75 / 22) : ℝ) ≤ Real.exp (-3) := by
      apply Real.exp_le_exp.mpr
      norm_num
    have h2 : Real.exp (-3 : ℝ) < 1 / 20 := by
      rw [Real.exp_neg]
      have h20 : (0 : ℝ) < 20 := by norm_num
      have h3 := exp_three_gt
      rw [inv_eq_one_div]
      exact one_div_lt_one_div_of_lt h20 h3
    linarith
  have htail := erf_tail c hcpos
  have hden : (1 : ℝ) ≤ c * Real.sqrt Real.pi := by nlinarith
  have hmono : Real.exp (-c ^ 2) / (c * Real.sqrt Real.pi) ≤ Real.exp (-c ^ 2) :=
    div_le_self (le_of_lt (Real.exp_pos _)) hden
  have h05 : (0.05 : ℝ) = 1 / 20 := by norm_num
  linarith

theorem mwuP_five_five_zero_lt : mwuP 5 5 0 < 0.05 := by
  rw [mwuP]
  have harg : ((((5 * 5 * (5 + 5 + 1) : ℕ) : ℚ) : ℝ) / 12) = 275 / 12 := by norm_num
  rw [harg]
  have hstdpos : 0 < Real.sqrt (275 / 12) := Real.sqrt_pos.mpr (by norm_num)
  rw [if_neg (ne_of_gt hstdpos)]
  simp only []
  push_cast
  rw [show ((0 : ℝ) - 5 * 5 / 2) / Real.sqrt (275 / 12) = -(25 / 2 / Real.sqrt (275 / 12)) by
    ring]
  have hc0pos : 0 < (25 / 2 : ℝ) / Real.sqrt (275 / 12) := by positivity
  rw [abs_neg, abs_of_pos hc0pos]
  rw [normalCDF]
  have hdiv : -((25 / 2 : ℝ) / Real.sqrt (275 / 12)) / Real.sqrt 2
      = -((25 / 2) / (Real.sqrt (275 / 12) * Real.sqrt 2)) := by
    rw [neg_div, div_div]
  rw [hdiv, erf_neg]
  set c : ℝ := (25 / 2) / (Real.sqrt (275 / 12) * Real.sqrt 2) with hcdef
  have hcpos : 0 < c := by
    rw [hcdef]
    positivity
  have hc2 : c ^ 2 = 75 / 22 := by
    rw [hcdef, div_pow, mul_pow, Real.sq_sqrt (by norm_num : (0 : ℝ) ≤ 275 / 12),
      Real.sq_sqrt (by norm_num : (0 : ℝ) ≤ 2)]
    norm_num
  have hkey := one_sub_erf_lt c hcpos hc2
  nlinarith [hkey]

theorem rankSum_baseline_candidate :
    rankSum ([100, 102, 98, 101, 99] ++ [150, 148, 152, 149, 151])
      [100, 102, 98, 101, 99] = 15 := by
  have h100 : rankOf ([100, 102, 98, 101, 99] ++ [150, 148, 152, 149, 151]) 100 = 3 := by
    rw [rankOf,
      show countLT ([100, 102, 98, 101, 99] ++ [150, 148, 152, 149, 151]) 100 = 2 by decide,
      show countEQ ([100, 102, 98, 101, 99] ++ [150, 148, 152, 149, 151]) 100 = 1 by decide]
    norm_num
  have h102 : rankOf ([100, 102, 98, 101, 99] ++ [150, 148, 152, 149, 151]) 102 = 5 := by
    rw [rankOf,
      show countLT ([100, 102, 98, 101, 99] ++ [150, 148, 152, 149, 151]) 102 = 4 by decide,
      show countEQ ([100, 102, 98, 101, 99] ++ [150, 148, 152, 149, 151]) 102 = 1 by decide]
    norm_num
  have h98 : rankOf ([100, 102, 98, 101, 99] ++ [150, 148, 152, 149, 151]) 98 = 1 := by
    rw [rankOf,
      show countLT ([100, 102, 98, 101, 99] ++ [150, 148, 152, 149, 151]) 98 = 0 by decide,
      show countEQ ([100, 102, 98, 101, 99] ++ [150, 148, 152, 149, 151]) 98 = 1 by decide]
    norm_num
  have h101 : rankOf ([100, 102, 98, 101, 99] ++ [150, 148, 152, 149, 151]) 101 = 4 := by
    rw [rankOf,
      show countLT ([100, 102, 98, 101, 99] ++ [150, 148, 152, 149, 151]) 101 = 3 by decide,
      show countEQ ([100, 102, 98, 101, 99] ++ [150, 148, 152, 149, 151]) 101 = 1 by decide]
    norm_num
  have h99 : rankOf ([100, 102, 98, 101, 99] ++ [150, 148, 152, 149, 151]) 99 = 2 := by
    rw [rankOf,
      show countLT ([100, 102, 98, 101, 99] ++ [150, 148, 152, 149, 151]) 99 = 1 by decide,
      show countEQ ([100, 102, 98, 101, 99] ++ [150, 148, 152, 149, 151]) 99 = 1 by decide]
    norm_num
  rw [rankSum]
  simp only [List.map_cons, List.map_nil, List.sum_cons, List.sum_nil,
    h100, h102, h98, h101, h99]
  norm_num

theorem mwuU_baseline_candidate :
    mwuU [100, 102, 98, 101, 99] [150, 148, 152, 149, 151] = 0 := by
  have hU1 : mwuU1 [100, 102, 98, 101, 99] [150, 148, 152, 149, 151] = 0 := by
    rw [mwuU1, rankSum_baseline_candidate]
    norm_num
  rw [mwuU, hU1]
  norm_num

/-- C2: for baseline stats from `[100, 102, 98, 101, 99]` and candidate stats
from `[150, 148, 152, 149, 151]`, `Compare` reports a median difference of
`50` percent, non-overlapping ranges, and a statistically significant
difference (p-value below `0.05`). -/
theorem C2_concrete_comparison :
    (Compare (Calculate [100, 102, 98, 101, 99])
      (Calculate [150, 148, 152, 149, 151])).MedianDiffPct = 50 ∧
    (Compare (Calculate [100, 102, 98, 101, 99])
      (Calculate [150, 148, 152, 149, 151])).HasOverlap = false ∧
    (Compare (Calculate [100, 102, 98, 101, 99])
      (Calculate [150, 148, 152, 149, 151])).Significant := by
  have hbne : ([100, 102, 98, 101, 99] : List ℚ) ≠ [] := by simp
  have hcne : ([150, 148, 152, 149, 151] : List ℚ) ≠ [] := by simp
  have hbM : (Calculate [100, 102, 98, 101, 99]).Median = 100 := by
    rw [Calculate, if_neg hbne]
    show Median [100, 102, 98, 101, 99] = 100
    decide
  have hcM : (Calculate [150, 148, 152, 149, 151]).Median = 150 := by
    rw [Calculate, if_neg hcne]
    show Median [150, 148, 152, 149, 151] = 150
    decide
  have hbMin : (Calculate [100, 102, 98, 101, 99]).Min = 98 := by
    rw [Calculate, if_neg hbne]
    decide
  have hbMax : (Calculate [100, 102, 98, 101, 99]).Max = 102 := by
    rw [Calculate, if_neg hbne]
    decide
  have hcMin : (Calculate [150, 148, 152, 149, 151]).Min = 148 := by
    rw [Calculate, if_neg hcne]
    decide
  have hcMax : (Calculate [150, 148, 152, 149, 151]).Max = 152 := by
    rw [Calculate, if_neg hcne]
    decide
  have hbV : (Calculate [100, 102, 98, 101, 99]).Values = [100, 102, 98, 101, 99] := by
    rw [Calculate, if_neg hbne]
  have hcV : (Calculate [150, 148, 152, 149, 151]).Values = [150, 148, 152, 149, 151] := by
    rw [Calculate, if_neg hcne]
  refine ⟨?_, ?_, ?_⟩
  · simp only [Compare]
    rw [hbM, hcM, if_pos (by norm_num : (100 : ℚ) ≠ 0)]
    norm_num
  · simp only [Compare, HasOverlap]
    rw [hbMin, hbMax, hcMin, hcMax]
    decide
  · simp only [Compare]
    rw [hbV, hcV, MannWhitneyU, if_neg (by simp), mwuU_baseline_candidate]
    show mwuP 5 5 0 < 0.05
    exact mwuP_five_five_zero_lt

/-! ### All-failing executor runs -/

theorem singleLoop_all_fail (call : ℕ → ℚ × Bool) (hfail : ∀ i, (call i).2 = false) :
    ∀ k i, (singleLoop call i k).latencies.length = k ∧
      (singleLoop call i k).success = 0 ∧ (singleLoop call i k).errors = k := by
  intro k
  induction k with
  | zero => intro i; exact ⟨rfl, rfl, rfl⟩
  | succ n ih =>
    intro i
    have h := hfail i
    have hr := ih (i + 1)
    refine ⟨?_, ?_, ?_⟩
    all_goals simp [singleLoop, h, hr.1, hr.2.1, hr.2.2]
    all_goals omega

theorem batchLoop_all_fail (call : ℕ → ℕ → ℚ × Bool) (records batchSize : ℕ)
    (hb : 0 < batchSize) (hfail : ∀ i n, (call i n).2 = false) :
    ∀ i, (batchLoop call records batchSize hb i).latencies.length =
        batchCalls records batchSize hb i ∧
      (batchLoop call records batchSize hb i).success = 0 ∧
      (batchLoop call records batchSize hb i).errors = records - i := by
  intro i
  generalize hm : records - i = m
  induction m using Nat.strong_induction_on generalizing i with
  | _ m ih =>
    rw [batchLoop, batchCalls]
    split_ifs with h
    · have hrec := ih (records - (i + batchSize)) (by omega) (i + batchSize) rfl
      have hcall := hfail i (min batchSize (records - i))
      refine ⟨?_, ?_, ?_⟩
      all_goals simp [hcall, hrec.1, hrec.2.1, hrec.2.2]
      all_goals omega
    · refine ⟨rfl, rfl, ?_⟩
      show (0 : ℕ) = m
      omega

theorem runInsertWorker_all_fail (call : ℕ → ℕ → ℚ × Bool) (records batchSize : ℕ)
    (hb : 0 < batchSize) (hfail : ∀ i n, (call i n).2 = false) :
    (runInsertWorker call records batchSize hb).latencies.length =
      timedCalls records batchSize hb ∧
    (runInsertWorker call records batchSize hb).success = 0 ∧
    (runInsertWorker call records batchSize hb).errors = records := by
  rw [runInsertWorker, timedCalls]
  split_ifs with h1
  · exact singleLoop_all_fail (fun i => call i 1) (fun i => hfail i 1) records 0
  · have h := batchLoop_all_fail call records batchSize hb hfail 0
    exact ⟨h.1, h.2.1, by rw [h.2.2]; omega⟩

theorem timedCalls_pos (records batchSize : ℕ) (hb : 0 < batchSize) (hr : 1 ≤ records) :
    1 ≤ timedCalls records batchSize hb := by
  rw [timedCalls]
  split_ifs with h1
  · omega
  · rw [batchCalls, if_pos (by omega)]
    omega

theorem sum_map_list_range {M : Type} [AddCommMonoid M] (f : ℕ → M) (n : ℕ) :
    ((List.range n).map f).sum = ∑ i ∈ Finset.range n, f i := by
  induction n with
  | zero => rfl
  | succ k ih => rw [List.range_succ, List.map_append, List.sum_append,
      Finset.sum_range_succ, ih, List.map_cons, List.map_nil, List.sum_cons, List.sum_nil,
      add_zero]

/-- C8: when every timed operation call returns an error, a concurrent insert
run over `numRecords ≥ 1` records with `connections ≥ 1` workers reports
`opsFailed = numRecords` and `opsSucceeded = 0`, records exactly one elapsed
duration per timed call, and hence hands `CalculatePercentiles` a non-empty
latency list. -/
theorem C8_all_errors (call : ℕ → ℕ → ℕ → ℚ × Bool) (numRecords connections batchSize : ℕ)
    (hb : 0 < batchSize) (hn : 1 ≤ numRecords) (hc : 1 ≤ connections)
    (hfail : ∀ w i n, (call w i n).2 = false) :
    (InsertRecordsConcurrent call numRecords connections batchSize hb).2.2 = numRecords ∧
    (InsertRecordsConcurrent call numRecords connections batchSize hb).2.1 = 0 ∧
    (InsertRecordsConcurrent call numRecords connections batchSize hb).1.length =
      ((List.range connections).map fun w =>
        timedCalls (workerOps numRecords connections w) batchSize hb).sum ∧
    (InsertRecordsConcurrent call numRecords connections batchSize hb).1 ≠ [] := by
  have hworker := fun w => runInsertWorker_all_fail (call w)
    (workerOps numRecords connections w) batchSize hb (hfail w)
  have herr : (InsertRecordsConcurrent call numRecords connections batchSize hb).2.2 =
      numRecords := by
    show ((((List.range connections).map fun w =>
      runInsertWorker (call w) (workerOps numRecords connections w) batchSize hb).map
        WorkerResult.errors)).sum = numRecords
    rw [List.map_map]
    have he : ((List.range connections).map
        (WorkerResult.errors ∘ fun w =>
          runInsertWorker (call w) (workerOps numRecords connections w) batchSize hb)) =
        (List.range connections).map fun w => workerOps numRecords connections w :=
      List.map_congr_left fun w _ => (hworker w).2.2
    rw [he, sum_map_list_range]
    exact workerOps_sum_eq numRecords connections hc
  have hsucc : (InsertRecordsConcurrent call numRecords connections batchSize hb).2.1 = 0 := by
    show ((((List.range connections).map fun w =>
      runInsertWorker (call w) (workerOps numRecords connections w) batchSize hb).map
        WorkerResult.success)).sum = 0
    rw [List.map_map]
    have he : ((List.range connections).map
        (WorkerResult.success ∘ fun w =>
          runInsertWorker (call w) (workerOps numRecords connections w) batchSize hb)) =
        (List.range connections).map fun _ => 0 :=
      List.map_congr_left fun w _ => (hworker w).2.1
    rw [he]
    simp
  have hlen : (InsertRecordsConcurrent call numRecords connections batchSize hb).1.length =
      ((List.range connections).map fun w =>
        timedCalls (workerOps numRecords connections w) batchSize hb).sum := by
    show (((List.range connections).map fun w =>
      runInsertWorker (call w) (workerOps numRecords connections w) batchSize hb).map
        WorkerResult.latencies).flatten.length = _
    rw [List.length_flatten, List.map_map, List.map_map]
    congr 1
    exact List.map_congr_left fun w _ => (hworker w).1
  refine ⟨herr, hsucc, hlen, ?_⟩
  apply List.ne_nil_of_length_pos
  rw [hlen, sum_map_list_range]
  have hex : ∃ w ∈ Finset.range connections, 1 ≤ workerOps numRecords connections w := by
    by_contra hno
    push_neg at hno
    have hz : ∑ w ∈ Finset.range connections, workerOps numRecords connections w = 0 :=
      Finset.sum_eq_zero fun w hw => by
        have hw2 := hno w hw
        omega
    rw [workerOps_sum_eq numRecords connections hc] at hz
    omega
  obtain ⟨w, hwmem, hw⟩ := hex
  have h1 : 1 ≤ timedCalls (workerOps numRecords connections w) batchSize hb :=
    timedCalls_pos _ _ hb hw
  have hle : timedCalls (workerOps numRecords connections w) batchSize hb ≤
      ∑ i ∈ Finset.range connections, timedCalls (workerOps numRecords connections i) batchSize hb :=
    Finset.single_le_sum
      (fun i _ => Nat.zero_le (timedCalls (workerOps numRecords connections i) batchSize hb))
      hwmem
  omega

/-- Witness for `C8_all_errors`: three records over two workers, batch size
one, every call failing with latency `1`. -/
theorem C8_all_errors_witness :
    (InsertRecordsConcurrent (fun _ _ _ => ((1 : ℚ), false)) 3 2 1 (by decide)).2.2 = 3 ∧
    (InsertRecordsConcurrent (fun _ _ _ => ((1 : ℚ), false)) 3 2 1 (by decide)).2.1 = 0 ∧
    (InsertRecordsConcurrent (fun _ _ _ => ((1 : ℚ), false)) 3 2 1 (by decide)).1 ≠ [] := by
  have h := C8_all_errors (fun _ _ _ => ((1 : ℚ), false)) 3 2 1 (by decide) (by decide)
    (by decide) (fun _ _ _ => rfl)
  exact ⟨h.1, h.2.1, h.2.2.2⟩

end UuidBenchmark
